import Mathlib

/-!
Verification development for the BlockBlenderSchemExport repository.

The repository is a Blender add-on (src/__init__.py) that converts scene data
into Minecraft .schem files through the vendored mcschematic library.  The
mcschematic library itself (MCSchematic / Structure with setBlock,
getBlockStateAt, placeSchematic, getSubSchematic, translate, scaleXYZ, center,
getBounds, save) is not part of the sources available here, so those
operations are modelled from the specification (spec.md sections 3, 4.2, 4.4,
4.5); every such definition carries a doc comment starting with
"Modelled from the spec:".  The functions scale_schematic, write_variations,
replace_blocks and slice_schematic are translated directly from
src/__init__.py, and the immutable view classes from
src/immutable_views/_list_view.py, _set_view.py and
src/dependencies/immutable_views/_dict_view.py.
-/

namespace BlockBlender

/-- Integer 3D coordinate, as used by the schematic lattice. -/
abbrev Pos := ℤ × ℤ × ℤ

/-- Block identifiers are canonical strings such as "minecraft:air". -/
abbrev BlockId := String

/-- Canonical identifier of the default background block. -/
def airId : BlockId := "minecraft:air"

/-- First-match lookup of a position in an association list of blocks. -/
def lookupPos (p : Pos) : List (Pos × BlockId) → Option BlockId
  | [] => none
  | e :: rest => if e.1 = p then some e.2 else lookupPos p rest

/-- Modelled from the spec: the Structure/Schematic data model of the missing
mcschematic library (spec.md section 3) — a sparse mapping from occupied 3D
integer coordinates to block identifiers, defaulting to air for unset
coordinates.  The Schematic facade is a thin owner of one Structure, so both
are modelled as one type. -/
structure MCSchematic where
  blocks : List (Pos × BlockId)
deriving DecidableEq

/-- Modelled from the spec: a Schematic is created empty by the facade. -/
def MCSchematic.empty : MCSchematic := ⟨[]⟩

/-- Modelled from the spec: getBlockStateAt returns the stored block at the
position and minecraft:air for any position never explicitly set; it is a
total function (spec.md section 4.2, "Never fails"). -/
def MCSchematic.getBlockStateAt (s : MCSchematic) (p : Pos) : BlockId :=
  (lookupPos p s.blocks).getD airId

/-- Modelled from the spec: setBlock stores the mapping at the position,
overwriting any prior value there (last write wins, no merge). -/
def MCSchematic.setBlock (s : MCSchematic) (p : Pos) (b : BlockId) : MCSchematic :=
  ⟨(p, b) :: s.blocks.filter (fun e => decide (e.1 ≠ p))⟩

/-- Modelled from the spec: translate adds the offset to every stored
coordinate key, rebuilding the coordinate index (spec.md section 4.2). -/
def MCSchematic.translate (s : MCSchematic) (v : Pos) : MCSchematic :=
  ⟨s.blocks.map (fun e => (e.1 + v, e.2))⟩

/-- Modelled from the spec: placeSchematic copies every non-air block from the
other schematic into this one at position + offset, overwriting; air is never
copied (spec.md section 4.2). -/
def MCSchematic.placeSchematic (self other : MCSchematic) (offset : Pos) : MCSchematic :=
  other.blocks.foldl
    (fun acc e => if e.2 ≠ airId then acc.setBlock (e.1 + offset) e.2 else acc) self

/-- Decidable test that a position lies in the inclusive box [mn, mx]. -/
def inBoxB (mn mx p : Pos) : Bool :=
  decide (mn.1 ≤ p.1 ∧ p.1 ≤ mx.1 ∧ mn.2.1 ≤ p.2.1 ∧ p.2.1 ≤ mx.2.1 ∧
          mn.2.2 ≤ p.2.2 ∧ p.2.2 ≤ mx.2.2)

/-- Modelled from the spec: getSubSchematic returns a new independent
schematic containing only blocks within the inclusive box, re-based so result
coordinates are pos - minCorner (spec.md section 4.2). -/
def MCSchematic.getSubSchematic (s : MCSchematic) (mn mx : Pos) : MCSchematic :=
  ⟨(s.blocks.filter (fun e => inBoxB mn mx e.1)).map (fun e => (e.1 - mn, e.2))⟩

/-- Componentwise minimum of two positions. -/
def posMin (a b : Pos) : Pos := (min a.1 b.1, min a.2.1 b.2.1, min a.2.2 b.2.2)

/-- Componentwise maximum of two positions. -/
def posMax (a b : Pos) : Pos := (max a.1 b.1, max a.2.1 b.2.1, max a.2.2 b.2.2)

/-- Modelled from the spec: getBounds returns the tightest inclusive
axis-aligned box containing every non-air coordinate, with a degenerate
zero-size box at the origin as the sentinel for an empty structure
(spec.md sections 3 and 4.2). -/
def MCSchematic.getBounds (s : MCSchematic) : Pos × Pos :=
  match (s.blocks.filter (fun e => decide (e.2 ≠ airId))).map (fun e => e.1) with
  | [] => ((0, 0, 0), (0, 0, 0))
  | p :: rest => (rest.foldl posMin p, rest.foldl posMax p)

/-- Modelled from the spec: scaleXYZ maps each stored block at (x,y,z) to
(x*sx, y*sy, z*sz) relative to the anchor point; this creates gaps, not a
filled volume (spec.md section 4.2). -/
def MCSchematic.scaleXYZ (s : MCSchematic) (anchorPoint : Pos) (sx sy sz : ℕ) : MCSchematic :=
  ⟨s.blocks.map (fun e =>
    ((anchorPoint.1 + (e.1.1 - anchorPoint.1) * sx,
      anchorPoint.2.1 + (e.1.2.1 - anchorPoint.2.1) * sy,
      anchorPoint.2.2 + (e.1.2.2 - anchorPoint.2.2) * sz), e.2))⟩

/-- Modelled from the spec: center computes offset = -floor((min+max)/2) per
axis from the given bounds and translates by it (spec.md section 4.2; the
rounding rule is flagged ambiguous there, floor is used here). -/
def MCSchematic.center (s : MCSchematic) (bounds : Pos × Pos) : MCSchematic :=
  s.translate (-(Int.fdiv (bounds.1.1 + bounds.2.1) 2),
               -(Int.fdiv (bounds.1.2.1 + bounds.2.2.1) 2),
               -(Int.fdiv (bounds.1.2.2 + bounds.2.2.2) 2))

/-- Well-formedness of the sparse lattice: stored keys are pairwise distinct,
which holds for every schematic built through the facade operations. -/
def MCSchematic.WF (s : MCSchematic) : Prop :=
  (s.blocks.map (fun e => e.1)).Nodup

instance (s : MCSchematic) : Decidable s.WF := by
  unfold MCSchematic.WF; infer_instance

example : (MCSchematic.empty.setBlock (0, 0, 0) "minecraft:stone").getBlockStateAt (0, 0, 0)
    = "minecraft:stone" := by decide

example : (MCSchematic.empty.setBlock (0, 0, 0) "minecraft:stone").getBlockStateAt (1, 0, 0)
    = airId := by decide

/-- Offsets walked by itertools.product(range(sx), range(sy), range(sz)) in
scale_schematic (src/__init__.py lines 59 and 64), in iteration order. -/
def gridOffsets (sx sy sz : ℕ) : List (ℕ × ℕ × ℕ) :=
  (List.range sx).flatMap (fun i =>
    (List.range sy).flatMap (fun j =>
      (List.range sz).map (fun k => (i, j, k))))

/-- Shell test from src/__init__.py line 60: i == 0 or i == sx-1 or j == 0 or
j == sy-1 or k == 0 or k == sz-1 (natural subtraction, as Python computes
sx-1 on the nonnegative UI-supplied scale). -/
def isShell (sx sy sz : ℕ) (o : ℕ × ℕ × ℕ) : Bool :=
  o.1 == 0 || o.1 == sx - 1 || o.2.1 == 0 || o.2.1 == sy - 1 ||
  o.2.2 == 0 || o.2.2 == sz - 1

/-- View of a grid offset as an integer position. -/
def offPos (o : ℕ × ℕ × ℕ) : Pos := ((o.1 : ℤ), (o.2.1 : ℤ), (o.2.2 : ℤ))

/-- Translation of scale_schematic (src/__init__.py lines 50-70).  The global
block_count is threaded explicitly: the function receives its value and
returns the updated value alongside the resulting schematic. -/
def scale_schematic (schematic : MCSchematic) (scaleXYZ : ℕ × ℕ × ℕ)
    (connect_scaled hollow_scaled : Bool) (block_count : ℕ) : MCSchematic × ℕ :=
  if scaleXYZ ≠ (1, 1, 1) then
    let scaled := schematic.scaleXYZ (0, 0, 0) scaleXYZ.1 scaleXYZ.2.1 scaleXYZ.2.2
    if connect_scaled then
      if hollow_scaled then
        (gridOffsets scaleXYZ.1 scaleXYZ.2.1 scaleXYZ.2.2).foldl
          (fun acc o =>
            if isShell scaleXYZ.1 scaleXYZ.2.1 scaleXYZ.2.2 o then
              (acc.1.placeSchematic scaled (offPos o), acc.2 + block_count)
            else acc)
          (MCSchematic.empty, 0)
      else
        (gridOffsets scaleXYZ.1 scaleXYZ.2.1 scaleXYZ.2.2).foldl
          (fun acc o => (acc.1.placeSchematic scaled (offPos o), acc.2 + block_count))
          (MCSchematic.empty, 0)
    else (scaled, block_count)
  else (schematic, block_count)

/-- Inclusive integer range [a, b] as a list, in increasing order
(Python range(a, b+1)). -/
def intRange (a b : ℤ) : List ℤ :=
  (List.range (b + 1 - a).toNat).map (fun t : ℕ => a + (t : ℤ))

/-- Positions of itertools.product(range(mn.1, mx.1+1), range(mn.2, mx.2+1),
range(mn.3, mx.3+1)) as used in replace_blocks (src/__init__.py line 116). -/
def boxPositions (mn mx : Pos) : List Pos :=
  (intRange mn.1 mx.1).flatMap (fun x =>
    (intRange mn.2.1 mx.2.1).flatMap (fun y =>
      (intRange mn.2.2 mx.2.2).map (fun z => ((x, y, z) : Pos))))

/-- Materials are [weight, name] pairs as built by write_variations. -/
abbrev Material := ℤ × String

/-- Total of the weights passed to random.choices in replace_blocks. -/
def totalWeight (l : List Material) : ℤ := (l.map (fun m => m.1)).sum

/-- Single step of the replace_blocks loop body (src/__init__.py lines
117-120): read the current block, and if it is in the mask, overwrite it with
the block name of the source chosen by random.choices.  The random draw is
an oracle (choose) giving an index into source_list; random.choices raises
ValueError when the total weight is not positive, modelled as Except.error. -/
def replaceStep (choose : Pos → ℕ) (mask : List String) (source_list : List Material)
    (s : MCSchematic) (p : Pos) : Except Unit MCSchematic :=
  if s.getBlockStateAt p ∈ mask then
    if totalWeight source_list ≤ 0 then Except.error ()
    else
      let src := source_list.getD (choose p % source_list.length) (0, "")
      Except.ok (s.setBlock p src.2)
  else Except.ok s

/-- Loop of replace_blocks over the positions of the bounds box, mutating the
schematic in place and propagating the ValueError of random.choices. -/
def replaceLoop (choose : Pos → ℕ) (mask : List String) (source_list : List Material) :
    List Pos → MCSchematic → Except Unit MCSchematic
  | [], s => Except.ok s
  | p :: rest, s =>
    match replaceStep choose mask source_list s p with
    | Except.error e => Except.error e
    | Except.ok s2 => replaceLoop choose mask source_list rest s2

/-- Translation of replace_blocks (src/__init__.py lines 111-121): build the
mask of "minecraft:"-prefixed target names, then walk every position of the
current bounds in product order, replacing masked blocks by randomly chosen
source block names. -/
def replace_blocks (choose : Pos → ℕ) (schematic : MCSchematic)
    (target_list source_list : List Material) : Except Unit MCSchematic :=
  let mask := target_list.map (fun t => "minecraft:" ++ t.2)
  let bounds := schematic.getBounds
  replaceLoop choose mask source_list (boxPositions bounds.1 bounds.2) schematic

deriving instance DecidableEq for Except

example :
    replace_blocks (fun _ => 0) (MCSchematic.empty.setBlock (0, 0, 0) "minecraft:stone")
      [(100, "stone")] [(100, "dirt")]
    = Except.ok (MCSchematic.empty.setBlock (0, 0, 0) "dirt") := by decide

/-- Python str.split on a single separator character, over character lists
(s.split(sep) always returns at least one piece). -/
def splitOnCharL (c : Char) : List Char → List (List Char)
  | [] => [[]]
  | a :: rest =>
    match splitOnCharL c rest with
    | [] => [[]]
    | h :: t => if a = c then [] :: h :: t else (a :: h) :: t

/-- Fuel-driven worker for replaceSub; the fuel is an upper bound on the
number of characters still to be scanned, so it never runs out when started
with the length of the input. -/
def replaceSubFuel (pat rep : List Char) : ℕ → List Char → List Char
  | 0, l => l
  | _ + 1, [] => []
  | fuel + 1, a :: rest =>
    if pat ≠ [] ∧ pat.isPrefixOf (a :: rest) then
      rep ++ replaceSubFuel pat rep fuel ((a :: rest).drop pat.length)
    else a :: replaceSubFuel pat rep fuel rest

/-- Python str.replace over character lists: replace every non-overlapping
occurrence of a nonempty pattern by the replacement, scanning left to right. -/
def replaceSub (pat rep l : List Char) : List Char :=
  replaceSubFuel pat rep l.length l

/-- Value of a nonempty all-digit character list, in decimal. -/
def digitsVal (l : List Char) : Option ℤ :=
  if l = [] ∨ ¬ l.all (fun c => c.isDigit) then none
  else some (l.foldl (fun acc c => acc * 10 + ((c.toNat - 48 : ℕ) : ℤ)) 0)

/-- Python int() on a string, modelled for an optional sign followed by
decimal digits; none models the ValueError raised otherwise. -/
def pyInt : List Char → Option ℤ
  | '-' :: rest => (digitsVal rest).map (fun n => -n)
  | '+' :: rest => digitsVal rest
  | l => digitsVal l

/-- Model of re.findall at src/__init__.py line 73, which collects, left to
right and non-overlapping, every maximal run of one or more characters other
than a closing parenthesis that is enclosed between an opening and a closing
parenthesis.  Splitting on the closing parenthesis, each piece except the
last ends at one closing parenthesis; a match in that piece is everything
after its first opening parenthesis, provided that is nonempty. -/
def findVariations (s : List Char) : List (List Char) :=
  ((splitOnCharL ')' s).dropLast).filterMap (fun chunk =>
    match chunk.dropWhile (fun c => c ≠ '(') with
    | [] => none
    | _ :: content => if content = [] then none else some content)

/-- Parse of one material token in write_variations (src/__init__.py lines
88-95 and 98-105): a token containing a percent sign becomes
[int(part0), part1] of its split on the percent sign, any other token becomes
[100, token]; an int() failure is none. -/
def parseMaterial (s : List Char) : Option Material :=
  if s.contains '%' then
    let ps := splitOnCharL '%' s
    (pyInt (ps.getD 0 [])).map (fun n => (n, String.mk (ps.getD 1 [])))
  else some (100, String.mk s)

/-- Parse of one suboperation (src/__init__.py lines 85-105): split on the
colon, parse the comma-separated target materials from part 0 and the source
materials from part 1; a missing part 1 is an IndexError, modelled as none,
as is any int() failure. -/
def parseSubop (s : List Char) : Option (List Material × List Material) :=
  match splitOnCharL ':' s with
  | t :: src :: _ =>
    ((splitOnCharL ',' t).mapM parseMaterial).bind (fun targets =>
      ((splitOnCharL ',' src).mapM parseMaterial).map (fun sources => (targets, sources)))
  | _ => none

/-- Sequential application of the suboperations of one variation
(src/__init__.py lines 83-107): parse each suboperation and run
replace_blocks with its lists; any parse or replace failure escapes. -/
def applySubops (choose : Pos → ℕ) (s : MCSchematic) :
    List (List Char) → Except Unit MCSchematic
  | [] => Except.ok s
  | sub :: rest =>
    match parseSubop sub with
    | none => Except.error ()
    | some tlsl =>
      match replace_blocks choose s tlsl.1 tlsl.2 with
      | Except.error _ => Except.error ()
      | Except.ok s2 => applySubops choose s2 rest

/-- Record of one schematic.save(path, name, version) call: the directory and
the file name (spec.md section 4.5 builds directory/name.schem from them). -/
abbrev SavedFile := String × String

/-- Loop of write_variations (src/__init__.py lines 76-108): for each
variation, place the schematic into a fresh one, apply the suboperations, and
save one file; Bool false marks an escaped exception, with the files written
before it. -/
def write_variations_go (choose : Pos → ℕ) (schematic : MCSchematic)
    (path name : String) (var_count : ℕ) :
    List (List Char) → List SavedFile × Bool
  | [] => ([], true)
  | v :: rest =>
    let temp0 := MCSchematic.empty.placeSchematic schematic (0, 0, 0)
    match applySubops choose temp0 (splitOnCharL '&' v) with
    | Except.error _ => ([], false)
    | Except.ok _ =>
      let f : SavedFile := (path, name ++ "_variation" ++ toString (var_count + 1))
      let r := write_variations_go choose schematic path name (var_count + 1) rest
      (f :: r.1, r.2)

/-- Translation of write_variations (src/__init__.py lines 72-109): find the
parenthesised variations in post_edits, apply each variation to a fresh copy
of the schematic, saving one file per variation; returns the files written
and, when no exception escapes, the number of variations found (Python
returns len(variations)); none marks an escaped exception. -/
def write_variations (choose : Pos → ℕ) (schematic : MCSchematic)
    (path name version post_edits : String) : List SavedFile × Option ℕ :=
  let variations := findVariations post_edits.toList
  let r := write_variations_go choose schematic path name 0 variations
  (r.1, if r.2 then some variations.length else none)

/-- Python range(a, b, step) over integers, for a positive step. -/
def rangeStepZ (a b : ℤ) (step : ℕ) : List ℤ :=
  (List.range ((b - a + (step : ℤ) - 1) / (step : ℤ)).toNat).map
    (fun t : ℕ => a + (t : ℤ) * (step : ℤ))

/-- Items of the triple slicing loop in slice_schematic (src/__init__.py
lines 153-161): per axis, range(min, max+1, step) paired with the 1-based
counters dx, dy, dz, in iteration order. -/
def sliceItems (mn mx : Pos) (s0 s1 s2 : ℕ) : List ((ℕ × ℤ) × (ℕ × ℤ) × (ℕ × ℤ)) :=
  (rangeStepZ mn.1 (mx.1 + 1) s0).enum.flatMap (fun xi =>
    (rangeStepZ mn.2.1 (mx.2.1 + 1) s1).enum.flatMap (fun yj =>
      (rangeStepZ mn.2.2 (mx.2.2 + 1) s2).enum.map (fun zk =>
        ((xi.1 + 1, xi.2), (yj.1 + 1, yj.2), (zk.1 + 1, zk.2)))))

/-- Body of one iteration of the slicing loop (src/__init__.py lines
162-182): cut the sub-schematic, optionally re-anchor it, name it, save it,
and optionally write its variations.  The state is (count, variations,
files); an escaped exception carries the files written up to it. -/
def sliceStep (choose : Pos → ℕ) (schematic : MCSchematic) (s0 s1 s2 : ℕ)
    (slice_naming individual_origins path name version post_edits : String)
    (st : ℕ × ℕ × List SavedFile) (item : (ℕ × ℤ) × (ℕ × ℤ) × (ℕ × ℤ)) :
    Except (List SavedFile) (ℕ × ℕ × List SavedFile) :=
  let dx := item.1.1
  let i := item.1.2
  let dy := item.2.1.1
  let j := item.2.1.2
  let dz := item.2.2.1
  let k := item.2.2.2
  let count := st.1 + 1
  let mx : Pos := (i + (s0 : ℤ) - 1, j + (s1 : ℤ) - 1, k + (s2 : ℤ) - 1)
  let temp0 := schematic.getSubSchematic (i, j, k) mx
  let temp :=
    if individual_origins = "individual-centered" then
      temp0.center ((i, j, k), mx)
    else if individual_origins = "individual-corner" then
      temp0.center ((i - (s0 : ℤ) + 1, j - (s1 : ℤ) + 1, k - (s2 : ℤ) + 1), mx)
    else temp0
  let temp_name :=
    if slice_naming = "number" then name ++ "_" ++ toString count
    else if slice_naming = "coordinates" then
      name ++ "_x" ++ toString dx ++ "_y" ++ toString dy ++ "_z" ++ toString dz
    else
      name ++ "_" ++ toString count ++ "_x" ++ toString dx ++ "_y" ++ toString dy
        ++ "_z" ++ toString dz
  let files1 := st.2.2 ++ [((path, temp_name) : SavedFile)]
  if post_edits ≠ "" then
    let wv := write_variations choose temp path temp_name version post_edits
    match wv.2 with
    | none => Except.error (files1 ++ wv.1)
    | some n => Except.ok (count, n, files1 ++ wv.1)
  else Except.ok (count, st.2.1, files1)

/-- Character list of filepath.replace of backslashes by forward slashes
(src/__init__.py line 126). -/
def cleanedChars (filepath : String) : List Char :=
  (filepath.toList).map (fun c => if c = '\\' then '/' else c)

/-- Directory part of the save location (src/__init__.py line 127): all
slash-separated pieces except the last, rejoined. -/
def saveDir (filepath : String) : String :=
  String.mk (List.intercalate ['/'] (splitOnCharL '/' (cleanedChars filepath)).dropLast)

/-- File-name part of the save location (src/__init__.py lines 128-131): the
last slash-separated piece with every ".schem" occurrence removed. -/
def saveName (filepath : String) : String :=
  String.mk (replaceSub ".schem".toList [] ((splitOnCharL '/' (cleanedChars filepath)).getLastD []))

/-- The slash-normalized filepath as used in the success messages. -/
def cleanFilepath (filepath : String) : String := String.mk (cleanedChars filepath)

/-- Translation of slice_schematic (src/__init__.py lines 124-187).  The
result records the files saved, in order, and the returned value: some msg
for a normal return, none when an exception escapes (the files saved before
it remain). -/
def slice_schematic (choose : Pos → ℕ) (schematic : MCSchematic)
    (filepath version : String) (export_as_slices : ℕ × ℕ × ℕ)
    (slice_naming individual_origins post_edits : String) :
    List SavedFile × Option String :=
  let path := saveDir filepath
  let name := saveName filepath
  let cleanPath := cleanFilepath filepath
  if export_as_slices.1 = 0 ∧ export_as_slices.2.1 = 0 ∧ export_as_slices.2.2 = 0 then
    let mainFile : SavedFile := (path, name)
    if post_edits ≠ "" then
      let wv := write_variations choose schematic path name version post_edits
      match wv.2 with
      | none => (mainFile :: wv.1, none)
      | some variations =>
        if variations = 0 then
          (mainFile :: wv.1, some (cleanPath ++ " saved successfully!"))
        else
          (mainFile :: wv.1, some (cleanPath ++ " saved successfully!, "
            ++ toString variations ++ " extra variations saved!"))
    else ([mainFile], some (cleanPath ++ " saved successfully!"))
  else
    if export_as_slices.1 = 0 ∨ export_as_slices.2.1 = 0 ∨ export_as_slices.2.2 = 0 then
      ([], some "")
    else
      let bounds := schematic.getBounds
      let items := sliceItems bounds.1 bounds.2 export_as_slices.1
        export_as_slices.2.1 export_as_slices.2.2
      match items.foldlM
          (sliceStep choose schematic export_as_slices.1 export_as_slices.2.1
            export_as_slices.2.2 slice_naming individual_origins path name
            version post_edits)
          (0, 0, ([] : List SavedFile)) with
      | Except.error files => (files, none)
      | Except.ok st =>
        let cleanNoExt := String.mk (replaceSub ".schem".toList [] (cleanedChars filepath))
        if st.2.1 = 0 then
          (st.2.2, some (cleanNoExt ++ " batch saved successfully!, "
            ++ toString st.1 ++ " slices exported!"))
        else
          (st.2.2, some (cleanNoExt ++ " batch saved successfully!, "
            ++ toString st.1 ++ " slices exported!, " ++ toString st.2.1
            ++ " extra variations saved!"))

/-- Python list indexing with negative-index support; none models IndexError
(delegated to by ListView.__getitem__). -/
def pyListGet {α : Type} (l : List α) (i : ℤ) : Option α :=
  if 0 ≤ i then l.get? i.toNat
  else if (-i).toNat ≤ l.length then l.get? (l.length - (-i).toNat) else none

/-- Python list multiplication: the list concatenated with itself n times
(n of Python int type; a value below one yields the empty list). -/
def pyListMul {α : Type} (l : List α) (n : ℤ) : List α :=
  (List.replicate n.toNat l).flatten

/-- Immutable list view, from src/immutable_views/_list_view.py: the view
object holds the underlying sequence (attribute _list). -/
structure ListView (α : Type) where
  lst : List α

/-- Method __len__ of ListView: len of the underlying list. -/
def ListView.lengthV {α : Type} (v : ListView α) : ℕ := v.lst.length

/-- Method __getitem__ of ListView: index into the underlying list. -/
def ListView.getitem {α : Type} (v : ListView α) (i : ℤ) : Option α := pyListGet v.lst i

/-- Method __contains__ of ListView: membership in the underlying list. -/
def ListView.containsV {α : Type} [DecidableEq α] (v : ListView α) (a : α) : Bool :=
  v.lst.contains a

/-- Method __iter__ of ListView: the items of the underlying list, in order. -/
def ListView.iterV {α : Type} (v : ListView α) : List α := v.lst

/-- Method __reversed__ of ListView: the underlying items in reversed order. -/
def ListView.reversedV {α : Type} (v : ListView α) : List α := v.lst.reverse

/-- Method count of ListView: occurrences of the value in the underlying
list. -/
def ListView.countV {α : Type} [DecidableEq α] (v : ListView α) (a : α) : ℕ :=
  v.lst.count a

/-- Method index of ListView: position of the first occurrence in the
underlying list; none models ValueError. -/
def ListView.indexV {α : Type} [DecidableEq α] (v : ListView α) (a : α) : Option ℕ :=
  v.lst.indexOf? a

/-- Method __eq__ of ListView: equality of the underlying list with the other
list. -/
def ListView.eqV {α : Type} [DecidableEq α] (v : ListView α) (other : List α) : Bool :=
  decide (v.lst = other)

/-- Method __add__ of ListView: a new view on the concatenation of the
underlying list with the other list. -/
def ListView.addV {α : Type} (v : ListView α) (other : List α) : ListView α :=
  ⟨v.lst ++ other⟩

/-- Method __mul__ of ListView: a new view on the multiplication of the
underlying list by a number. -/
def ListView.mulV {α : Type} (v : ListView α) (n : ℤ) : ListView α :=
  ⟨pyListMul v.lst n⟩

/-- Method copy of ListView: a new view on a shallow copy of the underlying
list (value-equal to the underlying list). -/
def ListView.copyV {α : Type} (v : ListView α) : ListView α := ⟨v.lst⟩

/-- First-match lookup in an association-list dictionary (Python dict keys
are unique, so first match is the match). -/
def pyDictGet {κ ν : Type} [DecidableEq κ] (d : List (κ × ν)) (k : κ) : Option ν :=
  (d.find? (fun e => decide (e.1 = k))).map (fun e => e.2)

/-- Python dict item assignment: replace the value in place when the key is
present, append the pair otherwise (insertion order preserved). -/
def pyDictSet {κ ν : Type} [DecidableEq κ] (d : List (κ × ν)) (k : κ) (v : ν) :
    List (κ × ν) :=
  if (pyDictGet d k).isSome then d.map (fun e => if e.1 = k then (k, v) else e)
  else d ++ [(k, v)]

/-- Python dict equality: same keys mapped to equal values, order-blind. -/
def pyDictEq {κ ν : Type} [DecidableEq κ] [DecidableEq ν] (d1 d2 : List (κ × ν)) : Bool :=
  d1.length == d2.length && d1.all (fun e => pyDictGet d2 e.1 == some e.2)

/-- Python dict union (the | operator): a copy of the first dict updated with
the items of the second, the second winning on shared keys. -/
def pyDictUnion {κ ν : Type} [DecidableEq κ] (d1 d2 : List (κ × ν)) : List (κ × ν) :=
  d2.foldl (fun acc e => pyDictSet acc e.1 e.2) d1

/-- Immutable dict view, from
src/dependencies/immutable_views/_dict_view.py: the view object holds the
underlying dictionary (attribute _dict), modelled as an insertion-ordered
association list with unique keys. -/
structure DictView (κ ν : Type) where
  dct : List (κ × ν)

/-- Method __len__ of DictView. -/
def DictView.lengthV {κ ν : Type} (v : DictView κ ν) : ℕ := v.dct.length

/-- Method __getitem__ of DictView; none models KeyError. -/
def DictView.getitem {κ ν : Type} [DecidableEq κ] (v : DictView κ ν) (k : κ) : Option ν :=
  pyDictGet v.dct k

/-- Method __contains__ of DictView: key membership in the underlying dict. -/
def DictView.containsV {κ ν : Type} [DecidableEq κ] (v : DictView κ ν) (k : κ) : Bool :=
  (pyDictGet v.dct k).isSome

/-- Method get of DictView: lookup with a default. -/
def DictView.getD {κ ν : Type} [DecidableEq κ] (v : DictView κ ν) (k : κ) (dflt : ν) : ν :=
  (pyDictGet v.dct k).getD dflt

/-- Method keys of DictView: the keys of the underlying dict, in order. -/
def DictView.keysV {κ ν : Type} (v : DictView κ ν) : List κ := v.dct.map (fun e => e.1)

/-- Method values of DictView: the values of the underlying dict, in order. -/
def DictView.valuesV {κ ν : Type} (v : DictView κ ν) : List ν := v.dct.map (fun e => e.2)

/-- Method items of DictView (also the iteration order of __iter__ over
keys). -/
def DictView.itemsV {κ ν : Type} (v : DictView κ ν) : List (κ × ν) := v.dct

/-- Method __eq__ of DictView: dict equality of the underlying dict with the
other dict. -/
def DictView.eqV {κ ν : Type} [DecidableEq κ] [DecidableEq ν] (v : DictView κ ν)
    (other : List (κ × ν)) : Bool :=
  pyDictEq v.dct other

/-- Method __or__ of DictView: a new view on the union of the underlying dict
with the other dict. -/
def DictView.orV {κ ν : Type} [DecidableEq κ] (v : DictView κ ν) (other : List (κ × ν)) :
    DictView κ ν :=
  ⟨pyDictUnion v.dct other⟩

/-- Method copy of DictView: a new view on a shallow copy of the underlying
dict. -/
def DictView.copyV {κ ν : Type} (v : DictView κ ν) : DictView κ ν := ⟨v.dct⟩

/-- Python set intersection over the list model of a set. -/
def pySetAnd {α : Type} [DecidableEq α] (s1 s2 : List α) : List α :=
  s1.filter (fun a => s2.contains a)

/-- Python set union over the list model of a set. -/
def pySetOr {α : Type} [DecidableEq α] (s1 s2 : List α) : List α :=
  s1 ++ s2.filter (fun a => ¬ s1.contains a)

/-- Python set difference over the list model of a set. -/
def pySetSub {α : Type} [DecidableEq α] (s1 s2 : List α) : List α :=
  s1.filter (fun a => ¬ s2.contains a)

/-- Python set symmetric difference over the list model of a set. -/
def pySetXor {α : Type} [DecidableEq α] (s1 s2 : List α) : List α :=
  pySetSub s1 s2 ++ pySetSub s2 s1

/-- Python set issubset over the list model of a set. -/
def pySetLe {α : Type} [DecidableEq α] (s1 s2 : List α) : Bool :=
  s1.all (fun a => s2.contains a)

/-- Python set equality over the list model of a set. -/
def pySetEq {α : Type} [DecidableEq α] (s1 s2 : List α) : Bool :=
  pySetLe s1 s2 && pySetLe s2 s1

/-- Immutable set view, from src/immutable_views/_set_view.py: the view
object holds the underlying set (attribute _set), modelled as a duplicate-free
list. -/
structure SetView (α : Type) where
  st : List α

/-- Method __len__ of SetView. -/
def SetView.lengthV {α : Type} (v : SetView α) : ℕ := v.st.length

/-- Method __contains__ of SetView: membership in the underlying set. -/
def SetView.containsV {α : Type} [DecidableEq α] (v : SetView α) (a : α) : Bool :=
  v.st.contains a

/-- Method __iter__ of SetView: the items of the underlying set. -/
def SetView.iterV {α : Type} (v : SetView α) : List α := v.st

/-- Method __and__ of SetView: a new view on the intersection with the other
set. -/
def SetView.andV {α : Type} [DecidableEq α] (v : SetView α) (other : List α) : SetView α :=
  ⟨pySetAnd v.st other⟩

/-- Method __or__ of SetView: a new view on the union with the other set. -/
def SetView.orV {α : Type} [DecidableEq α] (v : SetView α) (other : List α) : SetView α :=
  ⟨pySetOr v.st other⟩

/-- Method __sub__ of SetView: a new view on the difference with the other
set. -/
def SetView.subV {α : Type} [DecidableEq α] (v : SetView α) (other : List α) : SetView α :=
  ⟨pySetSub v.st other⟩

/-- Method __xor__ of SetView: a new view on the symmetric difference with
the other set. -/
def SetView.xorV {α : Type} [DecidableEq α] (v : SetView α) (other : List α) : SetView α :=
  ⟨pySetXor v.st other⟩

/-- Method issubset (and __le__) of SetView. -/
def SetView.issubset {α : Type} [DecidableEq α] (v : SetView α) (other : List α) : Bool :=
  pySetLe v.st other

/-- Method issuperset (and __ge__) of SetView. -/
def SetView.issuperset {α : Type} [DecidableEq α] (v : SetView α) (other : List α) : Bool :=
  pySetLe other v.st

/-- Method isdisjoint of SetView. -/
def SetView.isdisjoint {α : Type} [DecidableEq α] (v : SetView α) (other : List α) : Bool :=
  v.st.all (fun a => ¬ other.contains a)

/-- Method __eq__ of SetView: set equality of the underlying set with the
other set. -/
def SetView.eqV {α : Type} [DecidableEq α] (v : SetView α) (other : List α) : Bool :=
  pySetEq v.st other

/-- Method copy of SetView: a new view on a shallow copy of the underlying
set. -/
def SetView.copyV {α : Type} (v : SetView α) : SetView α := ⟨v.st⟩

/-- A store of container objects of one kind: the view classes hold a live
reference to the underlying container, modelled as an address into a store. -/
def Store (γ : Type) := ℕ → γ

/-- Point update of a store: what a mutation of the underlying container
object (performed by its owner, not by the view) does. -/
def Store.put {γ : Type} (store : Store γ) (addr : ℕ) (c : γ) : Store γ :=
  fun a => if a = addr then c else store a

/-- The ListView over the list object at an address: its _list attribute is
that very object, so any later change to the object is visible through it. -/
def listViewAt {α : Type} (store : Store (List α)) (addr : ℕ) : ListView α := ⟨store addr⟩

/-- The DictView over the dict object at an address. -/
def dictViewAt {κ ν : Type} (store : Store (List (κ × ν))) (addr : ℕ) : DictView κ ν :=
  ⟨store addr⟩

/-- The SetView over the set object at an address. -/
def setViewAt {α : Type} (store : Store (List α)) (addr : ℕ) : SetView α := ⟨store addr⟩

/-- Modelled from the spec: the filesystem visible to the container writer, a
mapping from paths to the byte contents of the file there (none: no file). -/
def FS := String → Option (List ℕ)

/-- Creation or replacement of one file. -/
def FS.setFile (fs : FS) (path : String) (data : List ℕ) : FS :=
  fun q => if q = path then some data else fs q

/-- Removal of one file. -/
def FS.removeFile (fs : FS) (path : String) : FS :=
  fun q => if q = path then none else fs q

/-- Modelled from the spec: how far a single save attempt gets: the write of
the temporary file may stop after k bytes, the final rename may fail, or
everything succeeds (encoding failure is the none encoder output). -/
inductive WriteOutcome where
  | writeFail (k : ℕ)
  | renameFail
  | success
deriving DecidableEq

/-- Modelled from the spec: the container writer of the missing mcschematic
library (spec.md section 4.4): it serializes the tag tree to the binary
named-binary-tag format and gzip-compresses it (abstracted as the encoder
output enc, none when encoding fails), writes the byte stream to a temporary
file next to the destination, and atomically renames the temporary file onto
the destination path; on any failure the destination is not touched. -/
def containerWrite (fs : FS) (path : String) (enc : Option (List ℕ))
    (outcome : WriteOutcome) : FS × Bool :=
  match enc with
  | none => (fs, false)
  | some bytes =>
    let tmp := path ++ ".tmp"
    match outcome with
    | WriteOutcome.writeFail k => (fs.setFile tmp (bytes.take k), false)
    | WriteOutcome.renameFail => (fs.setFile tmp bytes, false)
    | WriteOutcome.success => (((fs.setFile tmp bytes).removeFile tmp).setFile path bytes, true)

theorem lookupPos_filter_ne (p q : Pos) (l : List (Pos × BlockId)) (h : q ≠ p) :
    lookupPos q (l.filter (fun e => decide (e.1 ≠ p))) = lookupPos q l := by
  induction l with
  | nil => rfl
  | cons e rest ih =>
    by_cases he : e.1 = p
    · have hq : e.1 ≠ q := by rw [he]; exact Ne.symm h
      rw [List.filter_cons, if_neg (by simp [he]), ih]
      simp [lookupPos, hq]
    · rw [List.filter_cons, if_pos (by simpa using he)]
      by_cases hq : e.1 = q
      · simp [lookupPos, hq]
      · simp only [lookupPos, if_neg hq]
        exact ih

theorem getBlockStateAt_setBlock (s : MCSchematic) (p q : Pos) (b : BlockId) :
    (s.setBlock p b).getBlockStateAt q = if q = p then b else s.getBlockStateAt q := by
  by_cases h : q = p
  · simp [MCSchematic.setBlock, MCSchematic.getBlockStateAt, lookupPos, h]
  · simp only [MCSchematic.setBlock, MCSchematic.getBlockStateAt, lookupPos, if_neg h]
    rw [if_neg (fun hx => h hx.symm), lookupPos_filter_ne p q _ h]

theorem getBlockStateAt_translate (s : MCSchematic) (v p : Pos) :
    (s.translate v).getBlockStateAt p = s.getBlockStateAt (p - v) := by
  simp only [MCSchematic.translate, MCSchematic.getBlockStateAt]
  induction s.blocks with
  | nil => rfl
  | cons e rest ih =>
    simp only [List.map_cons, lookupPos]
    by_cases h : e.1 + v = p
    · rw [if_pos h, if_pos (eq_sub_of_add_eq h)]
    · rw [if_neg h, if_neg (fun hx => h (by rw [hx]; abel))]
      exact ih

theorem getBlockStateAt_getSubSchematic (s : MCSchematic) (mn mx q : Pos) :
    (s.getSubSchematic mn mx).getBlockStateAt q =
      if inBoxB mn mx (q + mn) then s.getBlockStateAt (q + mn) else airId := by
  simp only [MCSchematic.getSubSchematic, MCSchematic.getBlockStateAt]
  induction s.blocks with
  | nil => simp [lookupPos]
  | cons e rest ih =>
    simp only [List.filter_cons]
    by_cases hb : inBoxB mn mx e.1
    · rw [if_pos hb]
      simp only [List.map_cons, lookupPos]
      by_cases hq : e.1 - mn = q
      · have hqmn : e.1 = q + mn := by rw [← hq]; abel
        rw [if_pos hq, if_pos (by rw [← hqmn]; exact hb), ← hqmn]
        simp [lookupPos]
      · have hqmn : e.1 ≠ q + mn := fun hx => hq (by rw [hx]; abel)
        rw [if_neg hq]
        by_cases hbox : inBoxB mn mx (q + mn)
        · rw [if_pos hbox]
          simp only [lookupPos, if_neg hqmn]
          simpa [hbox] using ih
        · rw [if_neg hbox]
          simpa [hbox] using ih
    · rw [if_neg hb]
      by_cases hbox : inBoxB mn mx (q + mn)
      · have hqmn : e.1 ≠ q + mn := fun hx => hb (by rw [hx]; exact hbox)
        rw [if_pos hbox]
        simp only [lookupPos, if_neg hqmn]
        simpa [hbox] using ih
      · rw [if_neg hbox]
        simpa [hbox] using ih

theorem lookupPos_eq_none (k : Pos) (l : List (Pos × BlockId))
    (h : k ∉ l.map (fun e => e.1)) : lookupPos k l = none := by
  induction l with
  | nil => rfl
  | cons e rest ih =>
    simp only [List.map_cons, List.mem_cons] at h
    push_neg at h
    have hne : e.1 ≠ k := fun hx => h.1 hx.symm
    simp only [lookupPos, if_neg hne]
    exact ih h.2

theorem place_foldl_get (offset q : Pos) :
    ∀ (l : List (Pos × BlockId)) (self : MCSchematic), (l.map (fun e => e.1)).Nodup →
    (l.foldl (fun acc e => if e.2 ≠ airId then acc.setBlock (e.1 + offset) e.2 else acc)
        self).getBlockStateAt q
      = if (lookupPos (q - offset) l).getD airId ≠ airId
        then (lookupPos (q - offset) l).getD airId
        else self.getBlockStateAt q := by
  intro l
  induction l with
  | nil => intro self _; simp [lookupPos]
  | cons e rest ih =>
    intro self hnd
    simp only [List.map_cons, List.nodup_cons] at hnd
    simp only [List.foldl_cons]
    rw [ih _ hnd.2]
    by_cases hk : e.1 = q - offset
    · have hnone : lookupPos (q - offset) rest = none :=
        lookupPos_eq_none _ _ (hk ▸ hnd.1)
      have hq : e.1 + offset = q := by rw [hk]; abel
      rw [hnone]
      simp only [lookupPos, if_pos hk, Option.getD_none, Option.getD_some]
      rw [if_neg (by simp)]
      by_cases hair : e.2 ≠ airId
      · rw [if_pos hair, if_pos hair, getBlockStateAt_setBlock]
        simp [hq]
      · rw [if_neg hair, if_neg hair]
    · have hcons : lookupPos (q - offset) (e :: rest) = lookupPos (q - offset) rest := by
        simp [lookupPos, hk]
      rw [hcons]
      have hstep :
          (if e.2 ≠ airId then self.setBlock (e.1 + offset) e.2 else self).getBlockStateAt q
            = self.getBlockStateAt q := by
        by_cases hair : e.2 ≠ airId
        · rw [if_pos hair, getBlockStateAt_setBlock,
            if_neg (fun hx => hk (eq_sub_of_add_eq hx.symm))]
        · rw [if_neg hair]
      rw [hstep]

theorem getBlockStateAt_placeSchematic (self other : MCSchematic) (offset q : Pos)
    (h : other.WF) :
    (self.placeSchematic other offset).getBlockStateAt q =
      if other.getBlockStateAt (q - offset) ≠ airId
      then other.getBlockStateAt (q - offset)
      else self.getBlockStateAt q := by
  unfold MCSchematic.placeSchematic
  rw [place_foldl_get offset q other.blocks self h]
  rfl

theorem mem_intRange (a b x : ℤ) : x ∈ intRange a b ↔ a ≤ x ∧ x ≤ b := by
  simp only [intRange, List.mem_map, List.mem_range]
  constructor
  · rintro ⟨t, ht, rfl⟩
    omega
  · rintro ⟨h1, h2⟩
    exact ⟨(x - a).toNat, by omega, by omega⟩

theorem nodup_intRange (a b : ℤ) : (intRange a b).Nodup := by
  refine List.Nodup.map ?_ (List.nodup_range _)
  intro t1 t2 h
  have h2 : a + (t1 : ℤ) = a + (t2 : ℤ) := h
  omega

theorem mem_boxPositions (mn mx p : Pos) :
    p ∈ boxPositions mn mx ↔ inBoxB mn mx p = true := by
  simp only [boxPositions, List.mem_flatMap, List.mem_map, mem_intRange, inBoxB,
    decide_eq_true_eq]
  constructor
  · rintro ⟨x, hx, y, hy, z, hz, rfl⟩
    exact ⟨hx.1, hx.2, hy.1, hy.2, hz.1, hz.2⟩
  · rintro ⟨h1, h2, h3, h4, h5, h6⟩
    exact ⟨p.1, ⟨h1, h2⟩, p.2.1, ⟨h3, h4⟩, p.2.2, ⟨h5, h6⟩, rfl⟩

theorem nodup_boxPositions (mn mx : Pos) : (boxPositions mn mx).Nodup := by
  refine List.nodup_flatMap.2 ⟨fun x _ => ?_, ?_⟩
  · refine List.nodup_flatMap.2 ⟨fun y _ => ?_, ?_⟩
    · refine List.Nodup.map ?_ (nodup_intRange _ _)
      intro z1 z2 h
      simpa using h
    · refine List.Pairwise.imp ?_ (nodup_intRange _ _)
      intro y1 y2 hne q hq1 hq2
      simp only [List.mem_map] at hq1 hq2
      obtain ⟨z1, _, rfl⟩ := hq1
      obtain ⟨z2, _, he⟩ := hq2
      have hy : y2 = y1 := congrArg (fun r => r.2.1) he
      exact hne hy.symm
  · refine List.Pairwise.imp ?_ (nodup_intRange _ _)
    intro x1 x2 hne q hq1 hq2
    simp only [List.mem_flatMap, List.mem_map] at hq1 hq2
    obtain ⟨y1, _, z1, _, rfl⟩ := hq1
    obtain ⟨y2, _, z2, _, he⟩ := hq2
    have hx : x2 = x1 := congrArg (fun r => r.1) he
    exact hne hx.symm

theorem replaceLoop_frame (choose : Pos → ℕ) (mask : List String) (sl : List Material) :
    ∀ (l : List Pos) (cur s2 : MCSchematic), l.Nodup →
    replaceLoop choose mask sl l cur = Except.ok s2 →
    ∀ p, s2.getBlockStateAt p = cur.getBlockStateAt p ∨
      (p ∈ l ∧ cur.getBlockStateAt p ∈ mask ∧
        s2.getBlockStateAt p ∈ sl.map (fun m => m.2)) := by
  intro l
  induction l with
  | nil =>
    intro cur s2 _ hfold p
    simp only [replaceLoop] at hfold
    cases hfold
    exact Or.inl rfl
  | cons pos rest ih =>
    intro cur s2 hnd hfold p
    simp only [List.nodup_cons] at hnd
    simp only [replaceLoop] at hfold
    cases hstep : replaceStep choose mask sl cur pos with
    | error e => rw [hstep] at hfold; cases hfold
    | ok cur2 =>
      rw [hstep] at hfold
      unfold replaceStep at hstep
      by_cases hmask : cur.getBlockStateAt pos ∈ mask
      · rw [if_pos hmask] at hstep
        by_cases hw : totalWeight sl ≤ 0
        · rw [if_pos hw] at hstep; cases hstep
        · rw [if_neg hw] at hstep
          have hlen : 0 < sl.length := by
            rcases sl with _ | ⟨m, ms⟩
            · exfalso; exact hw (by simp [totalWeight])
            · simp
          have hidx : choose pos % sl.length < sl.length := Nat.mod_lt _ hlen
          have hsrc : (sl.getD (choose pos % sl.length) (0, "")).2
              ∈ sl.map (fun m => m.2) := by
            rw [List.getD_eq_getElem _ _ hidx]
            exact List.mem_map.2 ⟨_, List.getElem_mem hidx, rfl⟩
          cases hstep
          rcases ih _ _ hnd.2 hfold p with hsame | ⟨hmem, hm2, hs2⟩
          · rw [hsame, getBlockStateAt_setBlock]
            by_cases hp : p = pos
            · exact Or.inr ⟨by simp [hp], by rw [hp]; exact hmask, by rw [if_pos hp]; exact hsrc⟩
            · rw [if_neg hp]; exact Or.inl rfl
          · refine Or.inr ⟨List.mem_cons_of_mem _ hmem, ?_, hs2⟩
            have hp : p ≠ pos := fun hx => hnd.1 (hx ▸ hmem)
            rwa [getBlockStateAt_setBlock, if_neg hp] at hm2
      · rw [if_neg hmask] at hstep
        cases hstep
        rcases ih _ _ hnd.2 hfold p with hsame | ⟨hmem, hm2, hs2⟩
        · exact Or.inl hsame
        · exact Or.inr ⟨List.mem_cons_of_mem _ hmem, hm2, hs2⟩

/-- Grid offsets prescribed by the specification for the connect-scaled
composition: every (i,j,k) with i < sx, j < sy, k < sz, restricted to the
shell offsets when hollowing (spec.md section 4.2). -/
def specOffsets (sx sy sz : ℕ) (hollow : Bool) : List (ℕ × ℕ × ℕ) :=
  (gridOffsets sx sy sz).filter (fun o => !hollow || isShell sx sy sz o)

/-- Repeated placement of one schematic at a list of grid offsets into an
accumulator, as the specification describes the composition. -/
def placeAt (scaled : MCSchematic) (offs : List (ℕ × ℕ × ℕ)) (acc : MCSchematic) :
    MCSchematic :=
  offs.foldl (fun a o => a.placeSchematic scaled (offPos o)) acc

theorem foldl_pair_fst (pl : MCSchematic → (ℕ × ℕ × ℕ) → MCSchematic) (bc : ℕ) :
    ∀ (l : List (ℕ × ℕ × ℕ)) (a : MCSchematic) (b : ℕ),
      (l.foldl (fun acc o => (pl acc.1 o, acc.2 + bc)) (a, b)).1 = l.foldl pl a := by
  intro l
  induction l with
  | nil => intro a b; rfl
  | cons o rest ih => intro a b; exact ih _ _

theorem foldl_guard_pair (p : (ℕ × ℕ × ℕ) → Bool)
    (pl : MCSchematic → (ℕ × ℕ × ℕ) → MCSchematic) (bc : ℕ) :
    ∀ (l : List (ℕ × ℕ × ℕ)) (a : MCSchematic) (b : ℕ),
      (l.foldl (fun acc o => if p o then (pl acc.1 o, acc.2 + bc) else acc) (a, b)).1
        = (l.filter p).foldl pl a := by
  intro l
  induction l with
  | nil => intro a b; rfl
  | cons o rest ih =>
    intro a b
    by_cases h : p o
    · simp only [List.foldl_cons, List.filter_cons, h, if_pos]
      exact ih _ _
    · simp only [List.foldl_cons, List.filter_cons, h, if_neg, Bool.false_eq_true,
        not_false_eq_true]
      exact ih _ _

theorem mem_gridOffsets (sx sy sz i j k : ℕ) :
    (i, j, k) ∈ gridOffsets sx sy sz ↔ i < sx ∧ j < sy ∧ k < sz := by
  simp only [gridOffsets, List.mem_flatMap, List.mem_map, List.mem_range, Prod.mk.injEq]
  constructor
  · rintro ⟨x, hx, y, hy, z, hz, rfl, rfl, rfl⟩
    exact ⟨hx, hy, hz⟩
  · rintro ⟨h1, h2, h3⟩
    exact ⟨i, h1, j, h2, k, h3, rfl, rfl, rfl⟩

theorem nodup_gridOffsets (sx sy sz : ℕ) : (gridOffsets sx sy sz).Nodup := by
  refine List.nodup_flatMap.2 ⟨fun x _ => ?_, ?_⟩
  · refine List.nodup_flatMap.2 ⟨fun y _ => ?_, ?_⟩
    · refine List.Nodup.map ?_ (List.nodup_range _)
      intro z1 z2 h
      simpa using h
    · refine List.Pairwise.imp ?_ (List.nodup_range _)
      intro y1 y2 hne q hq1 hq2
      simp only [List.mem_map] at hq1 hq2
      obtain ⟨z1, _, rfl⟩ := hq1
      obtain ⟨z2, _, he⟩ := hq2
      have hy : y2 = y1 := congrArg (fun r => r.2.1) he
      exact hne hy.symm
  · refine List.Pairwise.imp ?_ (List.nodup_range _)
    intro x1 x2 hne q hq1 hq2
    simp only [List.mem_flatMap, List.mem_map] at hq1 hq2
    obtain ⟨y1, _, z1, _, rfl⟩ := hq1
    obtain ⟨y2, _, z2, _, he⟩ := hq2
    have hx : x2 = x1 := congrArg (fun r => r.1) he
    exact hne hx.symm

theorem mem_specOffsets (sx sy sz : ℕ) (hollow : Bool) (i j k : ℕ) :
    (i, j, k) ∈ specOffsets sx sy sz hollow ↔
      i < sx ∧ j < sy ∧ k < sz ∧
        (hollow = true →
          (i = 0 ∨ i = sx - 1 ∨ j = 0 ∨ j = sy - 1 ∨ k = 0 ∨ k = sz - 1)) := by
  simp only [specOffsets, List.mem_filter, mem_gridOffsets]
  cases hollow with
  | false => simp
  | true =>
    simp only [isShell, Bool.not_true, Bool.false_or, Bool.or_eq_true, beq_iff_eq,
      forall_const, true_implies]
    tauto

theorem nodup_specOffsets (sx sy sz : ℕ) (hollow : Bool) :
    (specOffsets sx sy sz hollow).Nodup :=
  (nodup_gridOffsets sx sy sz).filter _

/-- A schematic built from the empty one by a sequence of setBlock calls,
modelling an arbitrary facade client. -/
def buildFrom (ops : List (Pos × BlockId)) : MCSchematic :=
  ops.foldl (fun s e => s.setBlock e.1 e.2) MCSchematic.empty

theorem getBlockStateAt_foldl_setBlock (p : Pos) :
    ∀ (ops : List (Pos × BlockId)) (s : MCSchematic), p ∉ ops.map (fun e => e.1) →
      (ops.foldl (fun s e => s.setBlock e.1 e.2) s).getBlockStateAt p
        = s.getBlockStateAt p := by
  intro ops
  induction ops with
  | nil => intro s _; rfl
  | cons e rest ih =>
    intro s h
    simp only [List.map_cons, List.mem_cons] at h
    push_neg at h
    simp only [List.foldl_cons]
    rw [ih _ h.2, getBlockStateAt_setBlock, if_neg h.1]

/-- Claim C3: for every position never explicitly set by setBlock — inside
the current bounds, outside them, or with negative coordinates —
getBlockStateAt returns minecraft:air; getBlockStateAt is a total function of
the schematic and position, so it never fails for any input position. -/
theorem claim_C3_get_unset_air (ops : List (Pos × BlockId)) (p : Pos)
    (h : p ∉ ops.map (fun e => e.1)) :
    (buildFrom ops).getBlockStateAt p = "minecraft:air" := by
  unfold buildFrom
  rw [getBlockStateAt_foldl_setBlock p ops MCSchematic.empty h]
  rfl

theorem claim_C3_witness :
    (((-1, -2, 3) : Pos) ∉
      ([(((0, 0, 0) : Pos), ("minecraft:stone" : BlockId))].map (fun e => e.1))) ∧
    (buildFrom [((0, 0, 0), "minecraft:stone")]).getBlockStateAt (-1, -2, 3)
      = "minecraft:air" :=
  ⟨by decide, claim_C3_get_unset_air _ _ (by decide)⟩

/-- Claim C6: translating by v and then by -v restores the original
coordinate-to-block mapping exactly: every position maps to the same block
identifier as before the two translations. -/
theorem claim_C6_translate_roundtrip (s : MCSchematic) (v p : Pos) :
    ((s.translate v).translate (-v)).getBlockStateAt p = s.getBlockStateAt p := by
  rw [getBlockStateAt_translate, getBlockStateAt_translate]
  congr 1
  abel

/-- Claim C2: getSubSchematic keeps exactly the blocks of the inclusive box,
re-based by -minCorner: the block of the result at q is the original block at
q + minCorner when that lies in the box and air otherwise; every stored entry
of the result comes from inside the box; and on a structure with blocks at
(0,0,0) and (1,0,0), getSubSchematic((1,0,0),(1,0,0)) is the one-block
structure whose block sits at (0,0,0). -/
theorem claim_C2_getSubSchematic :
    (∀ (s : MCSchematic) (mn mx q : Pos),
      (s.getSubSchematic mn mx).getBlockStateAt q =
        if inBoxB mn mx (q + mn) then s.getBlockStateAt (q + mn) else airId) ∧
    (∀ (s : MCSchematic) (mn mx : Pos) (e : Pos × BlockId),
      e ∈ (s.getSubSchematic mn mx).blocks → inBoxB mn mx (e.1 + mn) = true) ∧
    (buildFrom [((0, 0, 0), "minecraft:stone"),
        ((1, 0, 0), "minecraft:dirt")]).getSubSchematic (1, 0, 0) (1, 0, 0)
      = MCSchematic.mk [((0, 0, 0), "minecraft:dirt")] := by
  refine ⟨fun s mn mx q => getBlockStateAt_getSubSchematic s mn mx q, ?_, by decide⟩
  intro s mn mx e he
  simp only [MCSchematic.getSubSchematic, List.mem_map, List.mem_filter] at he
  obtain ⟨e2, ⟨_, hbox⟩, rfl⟩ := he
  simpa [sub_add_cancel] using hbox

theorem claim_C2_witness :
    ((((0, 0, 0) : Pos), ("minecraft:dirt" : BlockId)) ∈
      ((buildFrom [((0, 0, 0), "minecraft:stone"),
        ((1, 0, 0), "minecraft:dirt")]).getSubSchematic (1, 0, 0) (1, 0, 0)).blocks) ∧
    inBoxB (1, 0, 0) (1, 0, 0) (((0, 0, 0) : Pos) + (1, 0, 0)) = true :=
  ⟨by decide,
    claim_C2_getSubSchematic.2.1
      (buildFrom [((0, 0, 0), "minecraft:stone"), ((1, 0, 0), "minecraft:dirt")])
      (1, 0, 0) (1, 0, 0) ((0, 0, 0), "minecraft:dirt") (by decide)⟩

/-- Claim C4: placeSchematic copies every non-air block of the other
schematic to position + offset, overwriting the destination, and never copies
air (a destination block is never overwritten by air from the other
schematic); consequently placing a schematic at offset (0,0,0) into a fresh
empty schematic reproduces its block mapping exactly. -/
theorem claim_C4_placeSchematic :
    (∀ (self other : MCSchematic) (offset q : Pos), other.WF →
      (self.placeSchematic other offset).getBlockStateAt q =
        if other.getBlockStateAt (q - offset) ≠ airId
        then other.getBlockStateAt (q - offset)
        else self.getBlockStateAt q) ∧
    (∀ (other : MCSchematic) (q : Pos), other.WF →
      (MCSchematic.empty.placeSchematic other (0, 0, 0)).getBlockStateAt q
        = other.getBlockStateAt q) := by
  refine ⟨fun self other offset q h => getBlockStateAt_placeSchematic self other offset q h,
    fun other q h => ?_⟩
  rw [getBlockStateAt_placeSchematic _ _ _ _ h]
  have hq : q - ((0, 0, 0) : Pos) = q := sub_zero q
  rw [hq]
  by_cases hx : other.getBlockStateAt q ≠ airId
  · rw [if_pos hx]
  · rw [if_neg hx]
    push_neg at hx
    rw [hx]
    rfl

theorem claim_C4_witness :
    (MCSchematic.mk [((0, 0, 0), "minecraft:stone")]).WF ∧
    (MCSchematic.empty.placeSchematic
        (MCSchematic.mk [((0, 0, 0), "minecraft:stone")]) (0, 0, 0)).getBlockStateAt (0, 0, 0)
      = (MCSchematic.mk [((0, 0, 0), "minecraft:stone")]).getBlockStateAt (0, 0, 0) :=
  ⟨by decide, claim_C4_placeSchematic.2 _ _ (by decide)⟩

/-- Claim C8: with scale (1,1,1), scale_schematic is the identity: it returns
the very schematic it was given with the global block count unchanged,
regardless of connect_scaled and hollow_scaled; the branch that would call
scaleXYZ and placeSchematic is not taken. -/
theorem claim_C8_scale_identity (s : MCSchematic) (cs hs : Bool) (bc : ℕ) :
    scale_schematic s (1, 1, 1) cs hs bc = (s, bc) := by
  unfold scale_schematic
  simp

/-- Claim C9: replace_blocks modifies only positions inside the current
bounds whose block state is one of the "minecraft:"-prefixed target names;
every position whose block is not in that mask, and every position outside
the bounds, keeps exactly its previous block state; and every block it writes
is the block name of one of the given source materials. -/
theorem claim_C9_replace_blocks (choose : Pos → ℕ) (s s2 : MCSchematic)
    (tl sl : List Material)
    (h : replace_blocks choose s tl sl = Except.ok s2) :
    ∀ p : Pos,
      ((s.getBlockStateAt p ∉ tl.map (fun t => "minecraft:" ++ t.2) ∨
          inBoxB s.getBounds.1 s.getBounds.2 p = false) →
        s2.getBlockStateAt p = s.getBlockStateAt p) ∧
      (s2.getBlockStateAt p ≠ s.getBlockStateAt p →
        inBoxB s.getBounds.1 s.getBounds.2 p = true ∧
        s.getBlockStateAt p ∈ tl.map (fun t => "minecraft:" ++ t.2) ∧
        s2.getBlockStateAt p ∈ sl.map (fun m => m.2)) := by
  unfold replace_blocks at h
  intro p
  have hframe := replaceLoop_frame choose (tl.map (fun t => "minecraft:" ++ t.2)) sl
    (boxPositions s.getBounds.1 s.getBounds.2) s s2
    (nodup_boxPositions _ _) h p
  constructor
  · intro hside
    rcases hframe with hsame | ⟨hmem, hmask, _⟩
    · exact hsame
    · rcases hside with hnm | hout
      · exact absurd hmask hnm
      · rw [(mem_boxPositions _ _ _).1 hmem] at hout
        cases hout
  · intro hne
    rcases hframe with hsame | ⟨hmem, hmask, hsrc⟩
    · exact absurd hsame hne
    · exact ⟨(mem_boxPositions _ _ _).1 hmem, hmask, hsrc⟩

theorem claim_C9_witness :
    replace_blocks (fun _ => 0) (MCSchematic.mk [((0, 0, 0), "minecraft:stone")])
      [(100, "stone")] [(100, "dirt")]
      = Except.ok (MCSchematic.mk [((0, 0, 0), "dirt")]) ∧
    (MCSchematic.mk [((0, 0, 0), "dirt")]).getBlockStateAt (1, 0, 0)
      = (MCSchematic.mk [((0, 0, 0), "minecraft:stone")]).getBlockStateAt (1, 0, 0) := by
  have h0 : replace_blocks (fun _ => 0) (MCSchematic.mk [((0, 0, 0), "minecraft:stone")])
      [(100, "stone")] [(100, "dirt")]
      = Except.ok (MCSchematic.mk [((0, 0, 0), "dirt")]) := by decide
  exact ⟨h0, (claim_C9_replace_blocks (fun _ => 0) _ _ _ _ h0 (1, 0, 0)).1
    (Or.inl (by decide))⟩

/-- Claim C1: for any scale triple other than (1,1,1) with connect_scaled
true, scale_schematic first applies scaleXYZ with anchor (0,0,0) and builds
its result by placing the scaled schematic, via placeSchematic, into a fresh
schematic at exactly the grid offsets (i,j,k) with i < scaleX, j < scaleY,
k < scaleZ — all of them when hollow_scaled is false and, when hollow_scaled
is true, exactly those where some coordinate equals 0 or its axis scale minus
one, every interior offset being skipped. -/
theorem claim_C1_scale_connect (s : MCSchematic) (sx sy sz : ℕ) (hollow : Bool)
    (bc : ℕ) (h : ((sx, sy, sz) : ℕ × ℕ × ℕ) ≠ (1, 1, 1)) :
    (scale_schematic s (sx, sy, sz) true hollow bc).1
      = placeAt (s.scaleXYZ (0, 0, 0) sx sy sz) (specOffsets sx sy sz hollow)
          MCSchematic.empty
    ∧ (specOffsets sx sy sz hollow).Nodup
    ∧ ∀ i j k : ℕ, (i, j, k) ∈ specOffsets sx sy sz hollow ↔
        (i < sx ∧ j < sy ∧ k < sz ∧
          (hollow = true →
            (i = 0 ∨ i = sx - 1 ∨ j = 0 ∨ j = sy - 1 ∨ k = 0 ∨ k = sz - 1))) := by
  refine ⟨?_, nodup_specOffsets sx sy sz hollow,
    fun i j k => mem_specOffsets sx sy sz hollow i j k⟩
  unfold scale_schematic
  rw [if_pos h]
  cases hollow with
  | false =>
    simp only [if_true, Bool.false_eq_true, if_false]
    rw [foldl_pair_fst (fun a o => a.placeSchematic (s.scaleXYZ (0, 0, 0) sx sy sz) (offPos o)) bc]
    unfold placeAt specOffsets
    simp
  | true =>
    simp only [if_true]
    rw [foldl_guard_pair (isShell sx sy sz)
      (fun a o => a.placeSchematic (s.scaleXYZ (0, 0, 0) sx sy sz) (offPos o)) bc]
    unfold placeAt specOffsets
    simp only [Bool.not_true, Bool.false_or]

theorem claim_C1_witness :
    (((2, 1, 1) : ℕ × ℕ × ℕ) ≠ (1, 1, 1)) ∧
    (scale_schematic (MCSchematic.mk [((0, 0, 0), "minecraft:stone")]) (2, 1, 1)
        true false 0).1
      = placeAt ((MCSchematic.mk [((0, 0, 0), "minecraft:stone")]).scaleXYZ (0, 0, 0) 2 1 1)
          (specOffsets 2 1 1 false) MCSchematic.empty :=
  ⟨by decide,
    (claim_C1_scale_connect (MCSchematic.mk [((0, 0, 0), "minecraft:stone")])
      2 1 1 false 0 (by decide)).1⟩

theorem tmpName_ne (path : String) : path ++ ".tmp" ≠ path := by
  intro h
  have hlen := congrArg String.length h
  rw [String.length_append] at hlen
  have h4 : (".tmp" : String).length = 4 := rfl
  omega

/-- Claim C5: the container writer serializes and gzip-compresses the tag
tree (the abstract encoder output) and writes it atomically through a
temporary file renamed onto the destination: when any save fails — encoding
failure, truncated write of the temporary file, or failed rename — the
destination path holds exactly what it held before, so no corrupt, cut-off,
or truncated file is left there; on success it holds the full byte stream. -/
theorem claim_C5_containerWrite (fs : FS) (path : String) (enc : Option (List ℕ))
    (outcome : WriteOutcome) :
    ((containerWrite fs path enc outcome).2 = false →
      (containerWrite fs path enc outcome).1 path = fs path) ∧
    (∀ bytes, enc = some bytes → (containerWrite fs path enc outcome).2 = true →
      (containerWrite fs path enc outcome).1 path = some bytes) := by
  have hne : path ≠ path ++ ".tmp" := fun hx => tmpName_ne path hx.symm
  cases enc with
  | none => exact ⟨fun _ => rfl, fun bytes hb => Option.noConfusion hb⟩
  | some bytes =>
    cases outcome with
    | writeFail k =>
      refine ⟨fun _ => ?_, fun b hb htrue => Bool.noConfusion htrue⟩
      simp only [containerWrite, FS.setFile, if_neg hne]
    | renameFail =>
      refine ⟨fun _ => ?_, fun b hb htrue => Bool.noConfusion htrue⟩
      simp only [containerWrite, FS.setFile, if_neg hne]
    | success =>
      refine ⟨fun hfalse => Bool.noConfusion hfalse, fun b hb _ => ?_⟩
      cases hb
      simp [containerWrite, FS.setFile]

theorem claim_C5_witness :
    (containerWrite (fun _ => none) "out.schem" (some [1, 2, 3])
        (WriteOutcome.writeFail 1)).2 = false ∧
    (containerWrite (fun _ => none) "out.schem" (some [1, 2, 3])
        (WriteOutcome.writeFail 1)).1 "out.schem" = (fun _ => none : FS) "out.schem" :=
  ⟨rfl, (claim_C5_containerWrite (fun _ => none) "out.schem" (some [1, 2, 3])
    (WriteOutcome.writeFail 1)).1 rfl⟩

/-- Claim C7: DictView, ListView and SetView are read-only delegating
adapters: every modelled query — indexing, length, membership, iteration,
comparison, copy, and the dict and set algebra operators — returns exactly
the result of the same operation applied to the underlying container (for
operators that return a new view, the container wrapped by that view is the
operation applied to the underlying containers, the underlying container
itself being left untouched), and the view is live: it holds the container
object itself, so a view over an updated object store reflects the updated
container. -/
theorem claim_C7_immutable_views :
    (∀ (α : Type) [DecidableEq α] (store : Store (List α)) (addr : ℕ),
      (listViewAt store addr).lengthV = (store addr).length ∧
      (∀ i : ℤ, (listViewAt store addr).getitem i = pyListGet (store addr) i) ∧
      (∀ a : α, (listViewAt store addr).containsV a = (store addr).contains a) ∧
      (listViewAt store addr).iterV = store addr ∧
      (listViewAt store addr).reversedV = (store addr).reverse ∧
      (∀ a : α, (listViewAt store addr).countV a = (store addr).count a) ∧
      (∀ a : α, (listViewAt store addr).indexV a = (store addr).indexOf? a) ∧
      (∀ o : List α, (listViewAt store addr).eqV o = decide (store addr = o)) ∧
      (∀ o : List α, ((listViewAt store addr).addV o).lst = store addr ++ o) ∧
      (∀ n : ℤ, ((listViewAt store addr).mulV n).lst = pyListMul (store addr) n) ∧
      ((listViewAt store addr).copyV.lst = store addr) ∧
      (∀ l2 : List α, listViewAt (store.put addr l2) addr = ListView.mk l2)) ∧
    (∀ (κ ν : Type) [DecidableEq κ] [DecidableEq ν]
        (store : Store (List (κ × ν))) (addr : ℕ),
      (dictViewAt store addr).lengthV = (store addr).length ∧
      (∀ k : κ, (dictViewAt store addr).getitem k = pyDictGet (store addr) k) ∧
      (∀ k : κ, (dictViewAt store addr).containsV k = (pyDictGet (store addr) k).isSome) ∧
      (∀ (k : κ) (d : ν), (dictViewAt store addr).getD k d
        = (pyDictGet (store addr) k).getD d) ∧
      ((dictViewAt store addr).keysV = (store addr).map (fun e => e.1)) ∧
      ((dictViewAt store addr).valuesV = (store addr).map (fun e => e.2)) ∧
      ((dictViewAt store addr).itemsV = store addr) ∧
      (∀ o : List (κ × ν), (dictViewAt store addr).eqV o = pyDictEq (store addr) o) ∧
      (∀ o : List (κ × ν), ((dictViewAt store addr).orV o).dct
        = pyDictUnion (store addr) o) ∧
      ((dictViewAt store addr).copyV.dct = store addr) ∧
      (∀ d2 : List (κ × ν), dictViewAt (store.put addr d2) addr = DictView.mk d2)) ∧
    (∀ (α : Type) [DecidableEq α] (store : Store (List α)) (addr : ℕ),
      (setViewAt store addr).lengthV = (store addr).length ∧
      (∀ a : α, (setViewAt store addr).containsV a = (store addr).contains a) ∧
      (setViewAt store addr).iterV = store addr ∧
      (∀ o : List α, ((setViewAt store addr).andV o).st = pySetAnd (store addr) o) ∧
      (∀ o : List α, ((setViewAt store addr).orV o).st = pySetOr (store addr) o) ∧
      (∀ o : List α, ((setViewAt store addr).subV o).st = pySetSub (store addr) o) ∧
      (∀ o : List α, ((setViewAt store addr).xorV o).st = pySetXor (store addr) o) ∧
      (∀ o : List α, (setViewAt store addr).issubset o = pySetLe (store addr) o) ∧
      (∀ o : List α, (setViewAt store addr).issuperset o = pySetLe o (store addr)) ∧
      (∀ o : List α, (setViewAt store addr).isdisjoint o
        = (store addr).all (fun a => ¬ o.contains a)) ∧
      (∀ o : List α, (setViewAt store addr).eqV o = pySetEq (store addr) o) ∧
      ((setViewAt store addr).copyV.st = store addr) ∧
      (∀ s2 : List α, setViewAt (store.put addr s2) addr = SetView.mk s2)) := by
  refine ⟨?_, ?_, ?_⟩
  · intro α _ store addr
    exact ⟨rfl, fun _ => rfl, fun _ => rfl, rfl, rfl, fun _ => rfl, fun _ => rfl,
      fun _ => rfl, fun _ => rfl, fun _ => rfl, rfl,
      fun l2 => by simp [listViewAt, Store.put]⟩
  · intro κ ν _ _ store addr
    exact ⟨rfl, fun _ => rfl, fun _ => rfl, fun _ _ => rfl, rfl, rfl, rfl,
      fun _ => rfl, fun _ => rfl, rfl,
      fun d2 => by simp [dictViewAt, Store.put]⟩
  · intro α _ store addr
    exact ⟨rfl, fun _ => rfl, rfl, fun _ => rfl, fun _ => rfl, fun _ => rfl,
      fun _ => rfl, fun _ => rfl, fun _ => rfl, fun _ => rfl, fun _ => rfl, rfl,
      fun s2 => by simp [setViewAt, Store.put]⟩

theorem append_ne_empty (a b : String) (h : b.length ≠ 0) : a ++ b ≠ "" := by
  intro hx
  have hl := congrArg String.length hx
  rw [String.length_append] at hl
  have h0 : ("" : String).length = 0 := rfl
  rw [h0] at hl
  omega

/-- Counterexample to claim C10 as stated: with export_as_slices = (0,0,0)
and post_edits = "(a)" — one variation whose only suboperation has no colon —
slice_schematic saves the main schematic, then write_variations hits an
IndexError on targets_and_sources[1], so the function never returns: no
success message (empty or not) is produced, contradicting the claimed
non-empty success message. -/
theorem claim_C10_counterexample :
    (slice_schematic (fun _ => 0) MCSchematic.empty "d/f.schem" "v" (0, 0, 0)
        "number" "shared" "(a)").1 = [("d", "f")] ∧
    (slice_schematic (fun _ => 0) MCSchematic.empty "d/f.schem" "v" (0, 0, 0)
        "number" "shared" "(a)").2 = none := by
  constructor <;> decide

/-- Claim C10, amended: if export_as_slices has a zero component but not all
three, slice_schematic saves no file and returns the empty string.  If all
three are zero it saves the main schematic first (directory and
extension-stripped name from filepath), saves extra variation files only when
post_edits is non-empty, and any message it returns is non-empty; in
particular with empty post_edits it saves exactly the main schematic and
returns a non-empty success message.  (When post_edits is non-empty but fails
to parse or apply, the exception escapes and no message is returned, though
the main schematic was already saved — this is the only deviation from the
original claim.) -/
theorem claim_C10_amended (choose : Pos → ℕ) (schematic : MCSchematic)
    (filepath version slice_naming individual_origins post_edits : String)
    (slices : ℕ × ℕ × ℕ) :
    ((slices.1 = 0 ∨ slices.2.1 = 0 ∨ slices.2.2 = 0) → slices ≠ (0, 0, 0) →
      slice_schematic choose schematic filepath version slices slice_naming
        individual_origins post_edits = ([], some "")) ∧
    (slices = (0, 0, 0) →
      (∃ rest, (slice_schematic choose schematic filepath version slices slice_naming
            individual_origins post_edits).1
          = (saveDir filepath, saveName filepath) :: rest ∧
        (rest ≠ [] → post_edits ≠ "")) ∧
      (post_edits = "" →
        slice_schematic choose schematic filepath version slices slice_naming
            individual_origins post_edits
          = ([(saveDir filepath, saveName filepath)],
              some (cleanFilepath filepath ++ " saved successfully!"))) ∧
      (∀ msg, (slice_schematic choose schematic filepath version slices slice_naming
          individual_origins post_edits).2 = some msg → msg ≠ "")) := by
  obtain ⟨a, b, c⟩ := slices
  constructor
  · intro h1 h2
    have hno : ¬(a = 0 ∧ b = 0 ∧ c = 0) := by
      rintro ⟨rfl, rfl, rfl⟩
      exact h2 rfl
    simp only [slice_schematic]
    rw [if_neg hno, if_pos h1]
  · intro heq
    have ha : a = 0 := congrArg (fun r => r.1) heq
    have hb : b = 0 := congrArg (fun r => r.2.1) heq
    have hc : c = 0 := congrArg (fun r => r.2.2) heq
    subst ha hb hc
    simp only [slice_schematic]
    rw [if_pos (by simp)]
    by_cases hpe : post_edits = ""
    · rw [if_neg (by simp [hpe])]
      refine ⟨⟨[], rfl, fun hne => absurd rfl hne⟩, fun _ => rfl, fun msg hmsg => ?_⟩
      have hm : cleanFilepath filepath ++ " saved successfully!" = msg :=
        Option.some.inj hmsg
      rw [← hm]
      exact append_ne_empty _ _ (by decide)
    · rw [if_pos hpe]
      split
      · exact ⟨⟨_, rfl, fun _ => hpe⟩, fun hx => absurd hx hpe,
          fun msg hmsg => Option.noConfusion hmsg⟩
      · rename_i v hveq
        by_cases hv : v = 0
        · rw [if_pos hv]
          refine ⟨⟨_, rfl, fun _ => hpe⟩, fun hx => absurd hx hpe, fun msg hmsg => ?_⟩
          have hm : cleanFilepath filepath ++ " saved successfully!" = msg :=
            Option.some.inj hmsg
          rw [← hm]
          exact append_ne_empty _ _ (by decide)
        · rw [if_neg hv]
          refine ⟨⟨_, rfl, fun _ => hpe⟩, fun hx => absurd hx hpe, fun msg hmsg => ?_⟩
          have hm : cleanFilepath filepath ++ " saved successfully!, "
              ++ toString v ++ " extra variations saved!" = msg :=
            Option.some.inj hmsg
          rw [← hm]
          exact append_ne_empty _ _ (by decide)

theorem claim_C10_witness :
    slice_schematic (fun _ => 0) MCSchematic.empty "d/f.schem" "v" (0, 2, 2)
      "number" "shared" "" = ([], some "") :=
  (claim_C10_amended (fun _ => 0) MCSchematic.empty "d/f.schem" "v" "number"
    "shared" "" (0, 2, 2)).1 (Or.inl rfl) (by decide)

end BlockBlender
